import Mathlib

/-!
Verification of the CLUE_SSDP decision-problem core against its design
specification.

The Python source is shallowly embedded: discrete variables are identified
with their position, domain values with their index in the ordered domain
(both `Variable.val_to_index` in `PGM.py` and the `list.index` lookup in
`StateTable.py` realise exactly this value-to-index identification for
duplicate-free domains), numeric table entries become `ℚ`, mutable caches
and Python object identity are threaded explicitly, and code that can raise
is embedded in `Except`/`Option`.
-/

namespace CLUE

/-! ## Mixed-radix indexing (`Factor` / `StateTable`)

`Factor.__init__` (PGM.py) and `StateTable.__init__` (StateTable.py) both
precompute `var_offsets`/`offsets` by walking the ordered variable list from
the last variable to the first, giving the last variable offset 1 and each
earlier variable the product of the later domain sizes; `size` ends up as the
product of all domain sizes.  A joint assignment is embedded as the list of
per-variable value indices (`digits`), aligned with the ordered variable
list (`sizes` is the list of domain sizes in the same order). -/

/-- `self.size` as computed by `Factor.__init__`/`StateTable.__init__`:
the product of all domain sizes. -/
def sizeProd (sizes : List Nat) : Nat := sizes.prod

/-- Little-endian mixed-radix composition.  The source's
`assignment_to_index` computes `Σ digit·offset` with the *last* variable
having offset 1, i.e. this function applied to the reversed size and digit
lists. -/
def a2iLE : List Nat → List Nat → Nat
  | s :: ss, d :: ds => d + s * a2iLE ss ds
  | _, _ => 0

/-- Little-endian mixed-radix decomposition.  `index_to_assignment` in the
source walks the variables from last to first taking `index % size` and
dividing, i.e. it computes this function on the reversed size list. -/
def i2aLE : List Nat → Nat → List Nat
  | [], _ => []
  | s :: ss, i => i % s :: i2aLE ss (i / s)

/-- `Factor.assignment_to_index` / `StateTable.assignment_to_index`:
mixed-radix index of a joint assignment, first-listed variable most
significant. -/
def assignment_to_index (sizes digits : List Nat) : Nat :=
  a2iLE sizes.reverse digits.reverse

/-- `Factor.index_to_assignment` / `StateTable.index_to_assignment`:
digits of `index`, recovered last variable first (`for i in
range(len(...)-1,-1,-1)`) and presented in variable order. -/
def index_to_assignment (sizes : List Nat) (i : Nat) : List Nat :=
  (i2aLE sizes.reverse i).reverse

theorem i2aLE_a2iLE (ss ds : List Nat)
    (hlt : List.Forall₂ (· < ·) ds ss) : i2aLE ss (a2iLE ss ds) = ds := by
  induction hlt with
  | nil => rfl
  | cons h _ ih =>
    rename_i d s ds' ss' _
    have hs : 0 < s := Nat.pos_of_ne_zero (by omega)
    simp only [a2iLE, i2aLE]
    rw [Nat.add_mul_mod_self_left, Nat.mod_eq_of_lt h,
      Nat.add_mul_div_left _ _ hs, Nat.div_eq_of_lt h, Nat.zero_add, ih]

theorem a2iLE_i2aLE (ss : List Nat) (i : Nat) (h : i < ss.prod) :
    a2iLE ss (i2aLE ss i) = i := by
  induction ss generalizing i with
  | nil =>
    simp only [List.prod_nil, Nat.lt_one_iff] at h
    simp [h, a2iLE, i2aLE]
  | cons s ss ih =>
    have hs : 0 < s := by
      rcases Nat.eq_zero_or_pos s with hz | hp
      · subst hz; simp at h
      · exact hp
    simp only [i2aLE, a2iLE]
    rw [ih (i / s) (by
      rw [List.prod_cons] at h
      exact Nat.div_lt_of_lt_mul h)]
    exact Nat.mod_add_div i s

/-- C2: `assignment_to_index` and `index_to_assignment` are mutually inverse
between valid digit lists (one value index per variable, each below its
domain size) and `[0, size)` with `size` the product of the domain sizes,
first-listed variable most significant. -/
theorem assignment_index_bijection (sizes digits : List Nat) (i : Nat)
    (hdig : List.Forall₂ (· < ·) digits sizes)
    (hi : i < sizeProd sizes) :
    index_to_assignment sizes (assignment_to_index sizes digits) = digits ∧
    assignment_to_index sizes (index_to_assignment sizes i) = i := by
  constructor
  · unfold index_to_assignment assignment_to_index
    rw [i2aLE_a2iLE _ _ (List.forall₂_reverse_iff.mpr hdig), List.reverse_reverse]
  · unfold index_to_assignment assignment_to_index
    rw [List.reverse_reverse, a2iLE_i2aLE]
    rw [List.prod_reverse]
    exact hi

/-- Witness for C2 on the concrete variable set with domain sizes `[2,3]`,
the assignment `[1,2]` and the index `4`. -/
theorem assignment_index_bijection_witness :
    List.Forall₂ (· < ·) [1, 2] [2, 3] ∧ 4 < sizeProd [2, 3] ∧
    (index_to_assignment [2, 3] (assignment_to_index [2, 3] [1, 2]) = [1, 2] ∧
     assignment_to_index [2, 3] (index_to_assignment [2, 3] 4) = 4) :=
  ⟨.cons (by decide) (.cons (by decide) .nil), by decide,
    assignment_index_bijection [2, 3] [1, 2] 4
      (.cons (by decide) (.cons (by decide) .nil)) (by decide)⟩

/-! ## Lazily memoized factors (`Factor_sum.get_value`, `Factor_max.get_value`)

Both classes initialise their memo array to `[None]*self.size` and guard the
cache lookup with `if self.values[index]:` — Python truthiness, under which
`None` and a stored `0` (or `0.0`) are both falsy.  The mutable memo array is
threaded explicitly; each `get_value` also reports whether it recomputed the
cell from the underlying factors. -/

/-- Python truthiness of a memo cell (`if self.values[index]:`): falsy for
`None` and for a stored zero. -/
def pyTruthy : Option ℚ → Bool
  | none => false
  | some v => decide (v ≠ 0)

/-- `Factor_sum`: the variable summed out (its domain size), the residual
scope (domain sizes of the remaining variables, in the order collected by
`Factor_sum.__init__`), and the constituent factors, each embedded as its
value at a residual assignment extended with a value of the summed-out
variable. -/
structure FactorSum where
  sizes : List Nat
  domSize : Nat
  factors : List (List Nat → Nat → ℚ)

/-- The sum recomputed by the `else` branch of `Factor_sum.get_value`:
`Σ` over the summed-out variable's domain of the pointwise product of the
constituent factors. -/
def sumTotal (f : FactorSum) (digits : List Nat) : ℚ :=
  ((List.range f.domSize).map
    (fun v => (f.factors.map (fun g => g digits v)).prod)).sum

/-- `Factor_sum.get_value`: look up the memo cell for the assignment; under
truthiness return it, otherwise recompute the sum and store it.  Returns the
value, the updated memo array, and whether the sum was recomputed. -/
def FactorSum.get_value (f : FactorSum) (cache : List (Option ℚ))
    (digits : List Nat) : ℚ × List (Option ℚ) × Bool :=
  let index := assignment_to_index f.sizes digits
  if pyTruthy (cache.getD index none) then
    ((cache.getD index none).getD 0, cache, false)
  else
    let total := sumTotal f digits
    (total, cache.set index (some total), true)

/-- `Factor_max`: the decision variable maximised out (its domain size), the
residual scope, and the single factor being maximised. -/
structure FactorMax where
  sizes : List Nat
  domSize : Nat
  factor : List Nat → Nat → ℚ

/-- The loop of the `else` branch of `Factor_max.get_value`: running
(strict) maximum and its first argmax over the decision variable's domain,
`none` for an empty domain (where the source would leave `best_elt`
unbound). -/
def maxScan (f : FactorMax) (digits : List Nat) : Option (ℚ × Nat) :=
  (List.range f.domSize).foldl
    (fun acc elt =>
      match acc with
      | none => some (f.factor digits elt, elt)
      | some (m, b) =>
        if f.factor digits elt > m then some (f.factor digits elt, elt)
        else some (m, b))
    none

/-- `Factor_max.get_value`: same truthiness-guarded memo as
`Factor_sum.get_value`, additionally recording the argmax in the decision
function's memo array.  Returns the value, the updated value memo, the
updated decision-function memo, and whether the maximum was recomputed. -/
def FactorMax.get_value (f : FactorMax) (cache : List (Option ℚ))
    (dfCache : List (Option Nat)) (digits : List Nat) :
    ℚ × List (Option ℚ) × List (Option Nat) × Bool :=
  let index := assignment_to_index f.sizes digits
  if pyTruthy (cache.getD index none) then
    ((cache.getD index none).getD 0, cache, dfCache, false)
  else
    match maxScan f digits with
    | some (m, b) => (m, cache.set index (some m), dfCache.set index (some b), true)
    | none => (0, cache, dfCache, true)

/-- C3 counterexample: a `Factor_sum` cell whose computed value is `0` is
recomputed by the very next `get_value` call for the same assignment, because
the stored `0` is falsy under the cache guard `if self.values[index]:`. -/
theorem factor_sum_cache_counterexample :
    (FactorSum.get_value ⟨[], 1, [fun _ _ => 0]⟩ [none] []).2.1 = [some 0] ∧
    (FactorSum.get_value ⟨[], 1, [fun _ _ => 0]⟩ [some 0] []).2.2 = true := by
  constructor <;>
    simp [FactorSum.get_value, pyTruthy, sumTotal, assignment_to_index, a2iLE]

/-- C3 amended: the memo guard is Python truthiness on a `None`-initialised
array, so only a non-zero cached value short-circuits.  For both
`Factor_sum.get_value` and `Factor_max.get_value`: a cell cached to `v ≠ 0`
is returned without recomputation and the caches are left untouched, while a
cell cached to `0` is recomputed from the underlying factors on every call
(still returning the same value); after a call that computes and caches a
non-zero value into a fresh cell, the next call returns it without
recomputing.  The caches `c1`/`gc` hold a cached value, `c4`/`gc4` a fresh
(`None`) cell, and `gc0` a cached `0`; `(m, b)` is the maximum and its
argmax as recomputed by `Factor_max`'s loop. -/
theorem memo_cache_truthiness (f : FactorSum) (g : FactorMax)
    (c1 c4 gc gc0 gc4 : List (Option ℚ)) (dfCache : List (Option Nat))
    (digits gdigits : List Nat) (v w m : ℚ) (b : Nat)
    (hv : c1.getD (assignment_to_index f.sizes digits) none = some v)
    (hw : gc.getD (assignment_to_index g.sizes gdigits) none = some w)
    (h4 : c4.getD (assignment_to_index f.sizes digits) none = none)
    (hlen : assignment_to_index f.sizes digits < c4.length)
    (hzero : gc0.getD (assignment_to_index g.sizes gdigits) none = some 0)
    (h4g : gc4.getD (assignment_to_index g.sizes gdigits) none = none)
    (hglen : assignment_to_index g.sizes gdigits < gc4.length)
    (hmax : maxScan g gdigits = some (m, b)) :
    (v ≠ 0 → f.get_value c1 digits = (v, c1, false)) ∧
    (v = 0 → f.get_value c1 digits =
      (sumTotal f digits,
       c1.set (assignment_to_index f.sizes digits) (some (sumTotal f digits)),
       true)) ∧
    (w ≠ 0 → g.get_value gc dfCache gdigits = (w, gc, dfCache, false)) ∧
    (sumTotal f digits ≠ 0 →
      (f.get_value c4 digits).2.2 = true ∧
      f.get_value (f.get_value c4 digits).2.1 digits =
        ((f.get_value c4 digits).1, (f.get_value c4 digits).2.1, false)) ∧
    (g.get_value gc0 dfCache gdigits =
      (m, gc0.set (assignment_to_index g.sizes gdigits) (some m),
       dfCache.set (assignment_to_index g.sizes gdigits) (some b), true)) ∧
    (m ≠ 0 →
      (g.get_value gc4 dfCache gdigits).2.2.2 = true ∧
      g.get_value (g.get_value gc4 dfCache gdigits).2.1
          (g.get_value gc4 dfCache gdigits).2.2.1 gdigits =
        ((g.get_value gc4 dfCache gdigits).1,
         (g.get_value gc4 dfCache gdigits).2.1,
         (g.get_value gc4 dfCache gdigits).2.2.1, false)) := by
  refine ⟨?_, ?_, ?_, ?_, ?_, ?_⟩
  · intro hne
    unfold FactorSum.get_value
    simp only [hv, pyTruthy, decide_eq_true hne, if_true, Option.getD_some]
  · intro h0
    subst h0
    unfold FactorSum.get_value
    simp only [hv, pyTruthy]
    simp
  · intro hne
    unfold FactorMax.get_value
    simp only [hw, pyTruthy, decide_eq_true hne, if_true, Option.getD_some]
  · intro htot
    have hfirst : f.get_value c4 digits =
        (sumTotal f digits,
         c4.set (assignment_to_index f.sizes digits) (some (sumTotal f digits)),
         true) := by
      unfold FactorSum.get_value
      simp only [h4, pyTruthy]
      simp
    refine ⟨by rw [hfirst], ?_⟩
    rw [hfirst]
    have hcached :
        (c4.set (assignment_to_index f.sizes digits)
          (some (sumTotal f digits))).getD (assignment_to_index f.sizes digits) none =
          some (sumTotal f digits) := by
      rw [List.getD_eq_getElem?_getD, List.getElem?_set_self hlen]
      rfl
    unfold FactorSum.get_value
    simp only [hcached, pyTruthy, decide_eq_true htot, if_true, Option.getD_some]
  · unfold FactorMax.get_value
    simp only [hzero, pyTruthy]
    simp [hmax]
  · intro hm0
    have hfirst : g.get_value gc4 dfCache gdigits =
        (m, gc4.set (assignment_to_index g.sizes gdigits) (some m),
         dfCache.set (assignment_to_index g.sizes gdigits) (some b), true) := by
      unfold FactorMax.get_value
      simp only [h4g, pyTruthy]
      simp [hmax]
    refine ⟨by rw [hfirst], ?_⟩
    rw [hfirst]
    have hcached :
        (gc4.set (assignment_to_index g.sizes gdigits)
          (some m)).getD (assignment_to_index g.sizes gdigits) none = some m := by
      rw [List.getD_eq_getElem?_getD, List.getElem?_set_self hglen]
      rfl
    unfold FactorMax.get_value
    simp only [hcached, pyTruthy, decide_eq_true hm0, if_true, Option.getD_some]

/-- Witness for C3 amended, on one-cell factors: a cached `5` (resp. `7`) is
returned without recomputation; a fresh `Factor_sum` cell computing the
non-zero sum `2` is recomputed only once; a `Factor_max` cell cached to `0`
is recomputed (flag `true`, maximum `3` and argmax `0` restored into the
caches); and a fresh `Factor_max` cell computing the non-zero maximum `3` is
recomputed on the first call only, the second call returning it from
cache. -/
theorem memo_cache_truthiness_witness :
    FactorSum.get_value ⟨[], 1, [fun _ _ => 2]⟩ [some 5] [] = (5, [some 5], false) ∧
    FactorMax.get_value ⟨[], 1, fun _ _ => 3⟩ [some 7] [none] [] = (7, [some 7], [none], false) ∧
    (FactorSum.get_value ⟨[], 1, [fun _ _ => 2]⟩ [none] []).2.2 = true ∧
    FactorMax.get_value ⟨[], 1, fun _ _ => 3⟩ [some 0] [none] [] =
      (3, [some 3], [some 0], true) ∧
    (FactorMax.get_value ⟨[], 1, fun _ _ => 3⟩ [none] [none] []).2.2.2 = true ∧
    FactorMax.get_value ⟨[], 1, fun _ _ => 3⟩ [some 3] [some 0] [] =
      (3, [some 3], [some 0], false) :=
  ⟨(memo_cache_truthiness ⟨[], 1, [fun _ _ => 2]⟩ ⟨[], 1, fun _ _ => 3⟩
      [some 5] [none] [some 7] [some 0] [none] [none] [] [] 5 7 3 0 (by decide)
      (by decide) (by decide) (by decide) (by decide) (by decide) (by decide)
      (by decide)).1 (by decide),
   (memo_cache_truthiness ⟨[], 1, [fun _ _ => 2]⟩ ⟨[], 1, fun _ _ => 3⟩
      [some 5] [none] [some 7] [some 0] [none] [none] [] [] 5 7 3 0 (by decide)
      (by decide) (by decide) (by decide) (by decide) (by decide) (by decide)
      (by decide)).2.2.1 (by decide),
   ((memo_cache_truthiness ⟨[], 1, [fun _ _ => 2]⟩ ⟨[], 1, fun _ _ => 3⟩
      [some 5] [none] [some 7] [some 0] [none] [none] [] [] 5 7 3 0 (by decide)
      (by decide) (by decide) (by decide) (by decide) (by decide) (by decide)
      (by decide)).2.2.2.1 (by simp [sumTotal])).1,
   ((memo_cache_truthiness ⟨[], 1, [fun _ _ => 2]⟩ ⟨[], 1, fun _ _ => 3⟩
      [some 5] [none] [some 7] [some 0] [none] [none] [] [] 5 7 3 0 (by decide)
      (by decide) (by decide) (by decide) (by decide) (by decide) (by decide)
      (by decide)).2.2.2.2.1).trans (by decide),
   ((memo_cache_truthiness ⟨[], 1, [fun _ _ => 2]⟩ ⟨[], 1, fun _ _ => 3⟩
      [some 5] [none] [some 7] [some 0] [none] [none] [] [] 5 7 3 0 (by decide)
      (by decide) (by decide) (by decide) (by decide) (by decide) (by decide)
      (by decide)).2.2.2.2.2 (by decide)).1,
   (((memo_cache_truthiness ⟨[], 1, [fun _ _ => 2]⟩ ⟨[], 1, fun _ _ => 3⟩
      [some 5] [none] [some 7] [some 0] [none] [none] [] [] 5 7 3 0 (by decide)
      (by decide) (by decide) (by decide) (by decide) (by decide) (by decide)
      (by decide)).2.2.2.2.2 (by decide)).2).trans (by decide)⟩

/-! ## StateTable construction (`StateTable.__init__`)

`StateTable.__init__` fills the table with
`for i in range(self.size): self.values.append(default_value)` — every cell
receives one and the same Python object.  Object identity is embedded by
instantiating the cell type with a reference (`Nat`) into an explicit heap
of mutable containers (`List (List ℚ)`); mutating a container is a `set` on
the heap, and reading a cell's container goes through its reference. -/

/-- A `StateTable`: the ordered domain sizes and the dense cell list. -/
structure StateTable (α : Type) where
  sizes : List Nat
  values : List α

/-- `StateTable.__init__`: `size = Π` domain sizes cells, each holding the
same `default_value` object. -/
def StateTable.init (sizes : List Nat) (default_value : α) : StateTable α :=
  ⟨sizes, List.replicate (sizeProd sizes) default_value⟩

/-- `StateTable.get_value`: `self.values[self.assignment_to_index(assignment)]`
(`none` embeds Python's `IndexError` for an out-of-range index). -/
def StateTable.get_value (st : StateTable α) (digits : List Nat) : Option α :=
  st.values.get? (assignment_to_index st.sizes digits)

/-- The container contents seen at a cell: follow the cell's reference into
the heap. -/
def observeCell (heap : List (List ℚ)) (st : StateTable Nat)
    (digits : List Nat) : Option (List ℚ) :=
  (st.get_value digits).map (fun r => heap.getD r [])

/-- C5 counterexample: a two-cell `StateTable` built with a (shared) mutable
default container, reference `0` into the one-container heap `[[]]`.
`get_value [0]` returns reference `0`; mutating that container (the heap
update `set 0 [5]`) changes the value observed at the *other* assignment
`[1]`, which the claim says must stay unchanged. -/
theorem statetable_shared_default_counterexample :
    (StateTable.init [2] 0).get_value [0] = some 0 ∧
    observeCell (([[]] : List (List ℚ)).set 0 [5]) (StateTable.init [2] 0) [1] ≠
      observeCell ([[]] : List (List ℚ)) (StateTable.init [2] 0) [1] := by
  constructor
  · rfl
  · simp [observeCell, StateTable.get_value, StateTable.init, sizeProd,
      assignment_to_index, a2iLE, sizeProd]

/-- C5 amended: every cell of a freshly built `StateTable` holds the *same*
default object, not an independently constructed instance: `get_value`
returns the default's reference at every valid assignment, and mutating the
container returned for one assignment changes the contents observed at every
(other) assignment to the mutated contents. -/
theorem statetable_shared_default (sizes digits₁ digits₂ : List Nat) (r : Nat)
    (heap : List (List ℚ)) (c : List ℚ) (hr : r < heap.length)
    (h1 : assignment_to_index sizes digits₁ < sizeProd sizes)
    (h2 : assignment_to_index sizes digits₂ < sizeProd sizes) :
    (StateTable.init sizes r).get_value digits₁ = some r ∧
    observeCell (heap.set r c) (StateTable.init sizes r) digits₂ = some c := by
  have hget : ∀ digits, assignment_to_index sizes digits < sizeProd sizes →
      (StateTable.init sizes r).get_value digits = some r := by
    intro digits h
    unfold StateTable.get_value StateTable.init
    simp only [List.get?_eq_getElem?, List.getElem?_replicate]
    rw [if_pos h]
  refine ⟨hget _ h1, ?_⟩
  unfold observeCell
  rw [hget _ h2]
  simp only [Option.map_some']
  rw [List.getD_eq_getElem?_getD, List.getElem?_set_self hr]
  rfl

/-- Witness for C5 amended on the two-cell table over one binary variable,
heap `[[]]`, mutated contents `[5]`. -/
theorem statetable_shared_default_witness :
    (0 < ([[]] : List (List ℚ)).length) ∧
    ((StateTable.init [2] 0).get_value [1] = some 0 ∧
     observeCell (([[]] : List (List ℚ)).set 0 [5]) (StateTable.init [2] 0) [0] = some [5]) :=
  ⟨by decide,
    statetable_shared_default [2] [1] [0] 0 [[]] [5] (by decide) (by decide) (by decide)⟩

/-! ## Reliability updates (`ClueAgent.learn` / `ClueAgent.act`)

`learn` evaluates an expert's (latest) advice each trial: optimal advice
increments `optimal_dict[expert]`, suboptimal advice `suboptimal_dict`, and
`beta_parameters[expert] = (optimal, suboptimal)`; on the next `act` call
`rho = alpha/(alpha+beta)`.  In sliding-window mode the outcome is instead
appended to `evals[expert]`, the list is truncated with
`evals[-sliding_window:]` once its length exceeds `sliding_window`, and the
counts are overwritten with `(np.sum(evals), len(evals) - np.sum(evals))`. -/

/-- `rho` as recomputed at the top of `ClueAgent.act`:
`alpha/(alpha+beta)` from `beta_parameters[expert]`. -/
def rhoOf (p : ℚ × ℚ) : ℚ := p.1 / (p.1 + p.2)

/-- Beta counts after `t` evaluations that were all judged optimal, in
unweighted Beta mode: the prior `initial_estimate = (a₀, b₀)`, with
`optimal_dict[expert] += 1` on every evaluation. -/
def betaAllOptimal (a0 b0 : ℚ) : Nat → ℚ × ℚ
  | 0 => (a0, b0)
  | t + 1 => ((betaAllOptimal a0 b0 t).1 + 1, (betaAllOptimal a0 b0 t).2)

theorem betaAllOptimal_eq (a0 b0 : ℚ) (t : Nat) :
    betaAllOptimal a0 b0 t = (a0 + t, b0) := by
  induction t with
  | zero => simp [betaAllOptimal]
  | succ t ih => rw [betaAllOptimal, ih]; push_cast; ring_nf

/-- C9: with a positive prior and every evaluation judged optimal, the
reliability estimate `ρ = optimal/(optimal+suboptimal)` is monotonically
non-decreasing in the number of evaluations, and converges to 1: past
`b₀/ε` evaluations it is within `ε` of 1. -/
theorem rho_all_optimal_monotone (a0 b0 ε : ℚ) (t : Nat)
    (ha : 0 < a0) (hb : 0 < b0) (hε : 0 < ε) :
    rhoOf (betaAllOptimal a0 b0 t) ≤ rhoOf (betaAllOptimal a0 b0 (t + 1)) ∧
    (b0 / ε ≤ (t : ℚ) → 1 - rhoOf (betaAllOptimal a0 b0 t) < ε) := by
  have ht : (0 : ℚ) ≤ (t : ℚ) := Nat.cast_nonneg t
  have hd : 0 < a0 + (t : ℚ) + b0 := by linarith
  have hd1 : 0 < a0 + ((t : ℚ) + 1) + b0 := by linarith
  rw [betaAllOptimal_eq, betaAllOptimal_eq]
  unfold rhoOf
  dsimp only
  constructor
  · push_cast
    rw [div_le_div_iff₀ (by linarith) (by linarith)]
    nlinarith
  · intro hN
    have hεt : b0 ≤ ε * t := by
      rw [div_le_iff₀ hε] at hN
      linarith [mul_comm ε (t : ℚ)]
    have key : 1 - (a0 + (t : ℚ)) / (a0 + (t : ℚ) + b0) = b0 / (a0 + (t : ℚ) + b0) := by
      field_simp
    rw [key, div_lt_iff₀ hd]
    nlinarith

/-- Witness for C9 at prior `(1,1)`, `ε = 1/2`, `t = 2`. -/
theorem rho_all_optimal_monotone_witness :
    (0 : ℚ) < 1 ∧ (0 : ℚ) < 1/2 ∧
    rhoOf (betaAllOptimal 1 1 2) ≤ rhoOf (betaAllOptimal 1 1 3) ∧
    1 - rhoOf (betaAllOptimal 1 1 2) < 1/2 :=
  ⟨by decide, by norm_num,
    (rho_all_optimal_monotone 1 1 (1/2) 2 (by decide) (by decide) (by norm_num)).1,
    (rho_all_optimal_monotone 1 1 (1/2) 2 (by decide) (by decide) (by norm_num)).2
      (by norm_num)⟩

/-- Python list slice `lst[-w:]`, as in `self.evals[expert][-self.sliding_window:]`:
a negative start index counts from the end and is clamped at 0, so for
`w > 0` this keeps the last `w` elements; for `w = 0` the start is `-0 = 0`
and the *whole* list is kept; for `w < 0` the start is the positive index
`-w`. -/
def pyTailSlice (w : Int) (l : List Bool) : List Bool :=
  if 0 < w then l.drop (l.length - w.toNat) else l.drop (-w).toNat

/-- One sliding-window evaluation in `ClueAgent.learn`: append the outcome
(`evals[expert].append(1 or 0)`), then truncate with `evals[-W:]` when
`len(evals) > W`. -/
def slideStep (W : Int) (evals : List Bool) (outcome : Bool) : List Bool :=
  if W < ((evals ++ [outcome]).length : Int) then pyTailSlice W (evals ++ [outcome])
  else evals ++ [outcome]

/-- The `evals[expert]` list after a run of recorded outcomes. -/
def slideRun (W : Int) (outcomes : List Bool) : List Bool :=
  outcomes.foldl (slideStep W) []

/-- `beta_parameters[expert]` in sliding-window mode: the prior
`initial_estimate = (a₀, b₀)` until the first evaluation, afterwards
`(np.sum(evals), len(evals) - np.sum(evals))`. -/
def betaSliding (a0 b0 : ℚ) (W : Int) (outcomes : List Bool) : ℚ × ℚ :=
  if outcomes.isEmpty then (a0, b0)
  else (((slideRun W outcomes).countP id : ℚ),
        (((slideRun W outcomes).length : ℚ) - ((slideRun W outcomes).countP id : ℚ)))

/-- ρ used by the next `act` call in sliding-window mode. -/
def rhoSliding (a0 b0 : ℚ) (W : Int) (outcomes : List Bool) : ℚ :=
  rhoOf (betaSliding a0 b0 W outcomes)

theorem slideRun_eq_drop (W : Int) (hW : 0 < W) (outcomes : List Bool) :
    slideRun W outcomes = outcomes.drop (outcomes.length - W.toNat) := by
  induction outcomes using List.reverseRecOn with
  | nil => simp [slideRun]
  | append_singleton xs x ih =>
    have hw1 : 1 ≤ W.toNat := by omega
    have hstep : slideRun W (xs ++ [x]) = slideStep W (slideRun W xs) x := by
      unfold slideRun
      rw [List.foldl_append, List.foldl_cons, List.foldl_nil]
    rw [hstep, ih]
    unfold slideStep
    by_cases hk : xs.length + 1 ≤ W.toNat
    · have hcond : ¬ (W < ((xs.drop (xs.length - W.toNat) ++ [x]).length : Int)) := by
        rw [List.length_append, List.length_drop]
        simp only [List.length_singleton]
        omega
      rw [if_neg hcond]
      have h1 : xs.length - W.toNat = 0 := by omega
      have h2 : (xs ++ [x]).length - W.toNat = 0 := by
        rw [List.length_append]; simp only [List.length_singleton]; omega
      rw [h1, h2, List.drop_zero, List.drop_zero]
    · have hxs : W.toNat ≤ xs.length := by omega
      have hlen : (xs.drop (xs.length - W.toNat)).length = W.toNat := by
        rw [List.length_drop]; omega
      have hcond : W < ((xs.drop (xs.length - W.toNat) ++ [x]).length : Int) := by
        rw [List.length_append, hlen]
        simp only [List.length_singleton]
        omega
      rw [if_pos hcond]
      unfold pyTailSlice
      rw [if_pos hW]
      have e1 : (xs.drop (xs.length - W.toNat) ++ [x]).length - W.toNat = 1 := by
        rw [List.length_append, hlen]; simp only [List.length_singleton]; omega
      rw [e1, List.drop_append_of_le_length (by rw [hlen]; omega), List.drop_drop]
      have e2 : (xs ++ [x]).length - W.toNat = xs.length - W.toNat + 1 := by
        rw [List.length_append]; simp only [List.length_singleton]; omega
      rw [e2, List.drop_append_of_le_length (by omega)]

/-- C8 counterexample: the constructor accepts `sliding_window = 0` (an
int), but then `evals[-0:]` is the whole list, so the truncation never drops
anything: after one evaluation (more than `W = 0`), ρ still depends on
outcomes outside the last `W = 0` ones — two histories with identical
(empty) last-0 suffixes give ρ = 1 and ρ = 0. -/
theorem sliding_window_zero_counterexample :
    [true].drop ([true].length - (0 : Int).toNat) =
      [false].drop ([false].length - (0 : Int).toNat) ∧
    rhoSliding 1 1 0 [true] ≠ rhoSliding 1 1 0 [false] := by
  constructor
  · rfl
  · unfold rhoSliding betaSliding slideRun slideStep pyTailSlice rhoOf
    norm_num

/-- C8 amended: for `sliding_window = W ≥ 1` (the `W = 0` int is accepted by
the constructor but never truncates, since `evals[-0:]` is the whole list),
once at least `W` evaluations have been recorded, `evals` holds exactly the
last `W` outcomes and ρ equals the number of successes among the last `W`
divided by `W`; the prior counts and all earlier outcomes have no
influence. -/
theorem sliding_window_rho (a0 b0 : ℚ) (W : Int) (outcomes : List Bool)
    (hW : 0 < W) (hlen : W.toNat ≤ outcomes.length) :
    slideRun W outcomes = outcomes.drop (outcomes.length - W.toNat) ∧
    rhoSliding a0 b0 W outcomes =
      ((outcomes.drop (outcomes.length - W.toNat)).countP id : ℚ) / (W.toNat : ℚ) := by
  have hrun := slideRun_eq_drop W hW outcomes
  refine ⟨hrun, ?_⟩
  have hne : ¬ outcomes.isEmpty := by
    cases outcomes with
    | nil => simp at hlen; omega
    | cons y ys => simp
  have hlexact : (slideRun W outcomes).length = W.toNat := by
    rw [hrun, List.length_drop]
    omega
  unfold rhoSliding betaSliding
  rw [if_neg hne]
  unfold rhoOf
  dsimp only
  have hl2 : (List.drop (outcomes.length - W.toNat) outcomes).length = W.toNat := by
    rw [List.length_drop]; omega
  rw [hrun, hl2]
  congr 1
  ring

/-- Witness for C8 amended: `W = 2` over the outcome history
`[true, false, true]`. -/
theorem sliding_window_rho_witness :
    (0 : Int) < 2 ∧ (2 : Int).toNat ≤ [true, false, true].length ∧
    (slideRun 2 [true, false, true] =
      [true, false, true].drop ([true, false, true].length - (2 : Int).toNat) ∧
     rhoSliding 1 1 2 [true, false, true] =
      (([true, false, true].drop ([true, false, true].length - (2 : Int).toNat)).countP id : ℚ) /
        (((2 : Int).toNat : ℚ))) :=
  ⟨by decide, by decide,
    sliding_window_rho 1 1 2 [true, false, true] (by decide) (by decide)⟩

/-! ## Advice-taking in `ClueAgent.act`

On the exploration path with advice available, `act` either (naive mode,
`no_bayes=True`) follows the highest-ρ expert, or (Bayesian mode) computes a
posterior over joint actions.  Joint actions are embedded as digit lists
(`combinations = list(product(*action_space.values()))`), expert names as
strings, `rho` and `advice_dict` as insertion-ordered association lists.
The Bernoulli trust draw (`np.random.choice([True,False],p=[p,1-p])`) is an
explicit boolean input.  The result `none` stands for falling through to the
uniformly random joint action; `some a` for returning the adopted advice. -/

/-- Python's `max(self.rho, key=self.rho.get)`: the first key attaining the
maximal value (later keys replace the running best only on strict
improvement), `none` for an empty dict (where Python raises `ValueError`). -/
def pyDictArgmax (rho : List (String × ℚ)) : Option String :=
  rho.foldl
    (fun acc kv =>
      match acc with
      | none => some kv
      | some best => if kv.2 > best.2 then some kv else some best)
    none |>.map (·.1)

/-- The naive (`no_bayes=True`) advice branch of `ClueAgent.act`, reached
while exploring with `advice_dict` non-empty: pick the highest-ρ expert over
*all* experts in `self.rho`, and if the trust draw succeeds look up that
expert in `advice_dict` — `advice_dict[best_expert]` raises `KeyError`
(embedded as `.error ()`) when the chosen expert has no remembered advice
for this state. -/
def naiveActBranch (rho : List (String × ℚ))
    (advice_dict : List (String × List Nat)) (trustDraw : Bool) :
    Except Unit (Option (List Nat)) :=
  match pyDictArgmax rho with
  | none => .error ()
  | some best =>
    if trustDraw then
      match advice_dict.lookup best with
      | some a => .ok (some a)
      | none => .error ()
    else .ok none

/-- C6: evaluating the naive branch at the failing input.  Expert `e1` has
the highest ρ but no remembered advice for the current state; `e2` has
advice.  When the trust draw succeeds, `act` raises a `KeyError` instead of
following the advising expert (or falling back); with a failing draw it
falls through to the uniform-random action. -/
theorem clue_naive_keyerror :
    naiveActBranch [("e1", 1), ("e2", 0)] [("e2", [0])] true = .error () ∧
    naiveActBranch [("e1", 1), ("e2", 0)] [("e2", [0])] false = .ok none := by
  constructor <;> rfl

/-- Likelihood term for one candidate joint action (`ClueAgent.act`):
`ρ_e` if the expert advised exactly this joint action, else
`(1-ρ_e)/(|A|-1)`; the terms multiply over the advising experts. -/
def likelihoodOf (nA : Nat) (advisers : List (ℚ × List Nat))
    (combo : List Nat) : ℚ :=
  (advisers.map
    (fun er => if er.2 = combo then er.1 else (1 - er.1) / ((nA : ℚ) - 1))).prod

/-- The `likelihoods` array, one entry per candidate joint action. -/
def likelihoods (advisers : List (ℚ × List Nat)) (combos : List (List Nat)) :
    List ℚ :=
  combos.map (likelihoodOf combos.length advisers)

/-- `probs`: likelihoods normalized by their sum. -/
def normProbs (advisers : List (ℚ × List Nat)) (combos : List (List Nat)) :
    List ℚ :=
  (likelihoods advisers combos).map (· / (likelihoods advisers combos).sum)

/-- Running argmax: original-position index and value of the first maximal
element, seeded with the element at position `b`. -/
def argmaxFrom (i b : Nat) (bv : ℚ) : List ℚ → Nat × ℚ
  | [] => (b, bv)
  | x :: xs => if x > bv then argmaxFrom (i + 1) i x xs else argmaxFrom (i + 1) b bv xs

/-- `np.argmax`: index (and value) of the first maximal element; `(0, 0)`
for the empty array (where NumPy raises). -/
def argmaxIdx : List ℚ → Nat × ℚ
  | [] => (0, 0)
  | x :: xs => argmaxFrom 1 0 x xs

/-- Maximum of a list of rationals, `0` for the empty list. -/
def listMax : List ℚ → ℚ
  | [] => 0
  | x :: xs => xs.foldl max x

/-- The default trust threshold set in `ClueAgent.__init__`:
`min(2/env.size_A, 0.5)`. -/
def defaultThreshold (sizeA : Nat) : ℚ := min (2 / (sizeA : ℚ)) (1 / 2)

/-- The Bayesian advice branch of `ClueAgent.act`, reached while exploring
with advice present and `no_bayes=False`: a zero likelihood sum forces
no-trust; otherwise the posterior is normalized, and the first-argmax action
is adopted only if its posterior clears the threshold and the Bernoulli
draw (with success probability that posterior) succeeds. -/
def bayesActBranch (combos : List (List Nat)) (advisers : List (ℚ × List Nat))
    (threshold : ℚ) (draw : Bool) : Option (List Nat) :=
  if (likelihoods advisers combos).sum = 0 then none
  else
    if (normProbs advisers combos).getD (argmaxIdx (normProbs advisers combos)).1 0
        < threshold then none
    else if draw then some (combos.getD (argmaxIdx (normProbs advisers combos)).1 [])
    else none

theorem argmaxFrom_val (xs : List ℚ) :
    ∀ i b bv, (argmaxFrom i b bv xs).2 = xs.foldl max bv := by
  induction xs with
  | nil => intro i b bv; rfl
  | cons x xs ih =>
    intro i b bv
    simp only [argmaxFrom, List.foldl_cons]
    by_cases hx : x > bv
    · rw [if_pos hx, ih, max_eq_right (le_of_lt hx)]
    · rw [if_neg hx, ih, max_eq_left (le_of_not_lt hx)]

theorem argmaxFrom_getD (l : List ℚ) :
    ∀ xs i b bv, xs = l.drop i → b < l.length → l.getD b 0 = bv →
      (argmaxFrom i b bv xs).1 < l.length ∧
      l.getD (argmaxFrom i b bv xs).1 0 = (argmaxFrom i b bv xs).2 := by
  intro xs
  induction xs with
  | nil => intro i b bv _ hb hv; exact ⟨hb, hv⟩
  | cons x xs ih =>
    intro i b bv hdrop hb hv
    have hi : i < l.length := by
      by_contra hge
      rw [List.drop_eq_nil_of_le (le_of_not_lt hge)] at hdrop
      cases hdrop
    have hx : l.getD i 0 = x := by
      have h0 : (List.drop i l)[0]? = some x := by
        rw [← hdrop]
        simp
      rw [List.getElem?_drop, Nat.add_zero] at h0
      rw [List.getD_eq_getElem?_getD, h0]
      rfl
    have htail : xs = l.drop (i + 1) := by
      have h1 : (l.drop i).drop 1 = l.drop (i + 1) := by
        rw [List.drop_drop]
      rw [← h1, ← hdrop]
      rfl
    simp only [argmaxFrom]
    by_cases hgt : x > bv
    · rw [if_pos hgt]
      exact ih (i + 1) i x htail hi hx
    · rw [if_neg hgt]
      exact ih (i + 1) b bv htail hb hv

/-- For a non-empty array, `probs[np.argmax(probs)]` is the maximum entry. -/
theorem argmaxIdx_getD (l : List ℚ) (hl : l ≠ []) :
    l.getD (argmaxIdx l).1 0 = listMax l := by
  cases l with
  | nil => exact absurd rfl hl
  | cons x xs =>
    have h := argmaxFrom_getD (x :: xs) xs 1 0 x (by rfl) (by simp) (by rfl)
    rw [argmaxIdx, h.2, argmaxFrom_val, listMax]

/-- C7: the Bayesian branch forces no-trust (the uniform-random fall-through,
never an exception or a division by zero) when the likelihood sum is `0` and
when the maximal normalized posterior is below the threshold (default
`min(2/|A|, 0.5)`); otherwise it adopts the argmax action exactly when the
Bernoulli draw with success probability that posterior succeeds. -/
theorem bayes_trust_protocol (combos : List (List Nat))
    (advisers : List (ℚ × List Nat)) (threshold : ℚ) (draw : Bool)
    (hc : combos ≠ []) :
    ((likelihoods advisers combos).sum = 0 →
      bayesActBranch combos advisers threshold draw = none) ∧
    ((likelihoods advisers combos).sum ≠ 0 →
      (listMax (normProbs advisers combos) < threshold →
        bayesActBranch combos advisers threshold draw = none) ∧
      (¬ listMax (normProbs advisers combos) < threshold →
        bayesActBranch combos advisers threshold draw =
          if draw then some (combos.getD (argmaxIdx (normProbs advisers combos)).1 [])
          else none)) ∧
    defaultThreshold combos.length = min (2 / (combos.length : ℚ)) (1 / 2) := by
  have hne : normProbs advisers combos ≠ [] := by
    unfold normProbs likelihoods
    simp only [ne_eq, List.map_eq_nil_iff]
    exact hc
  have hmax := argmaxIdx_getD (normProbs advisers combos) hne
  refine ⟨?_, ?_, rfl⟩
  · intro h0
    unfold bayesActBranch
    rw [if_pos h0]
  · intro h0
    constructor
    · intro hlt
      unfold bayesActBranch
      rw [if_neg h0, if_pos (by rwa [hmax])]
    · intro hge
      unfold bayesActBranch
      rw [if_neg h0, if_neg (by rwa [hmax])]

/-- Witness for C7: over the two joint actions `[[0],[1]]`, two fully
reliable contradicting experts zero out every likelihood (no-trust), while a
single fully reliable expert advising `[0]` clears the default threshold and
is adopted on a successful draw. -/
theorem bayes_trust_protocol_witness :
    ([[0], [1]] : List (List Nat)) ≠ [] ∧
    bayesActBranch [[0], [1]] [(1, [0]), (1, [1])] (defaultThreshold 2) true = none ∧
    bayesActBranch [[0], [1]] [(1, [0])] (defaultThreshold 2) true = some [0] :=
  ⟨by decide,
    (bayes_trust_protocol [[0], [1]] [(1, [0]), (1, [1])] (defaultThreshold 2) true
      (by decide)).1
      (by norm_num [likelihoods, likelihoodOf]),
    by
      have h := (bayes_trust_protocol [[0], [1]] [(1, [0])] (defaultThreshold 2) true
        (by decide)).2.1
      have hsum : (likelihoods [(1, [0])] [[0], [1]]).sum = 1 := by
        norm_num [likelihoods, likelihoodOf]
      have hp : normProbs [(1, [0])] [[0], [1]] = [1, 0] := by
        unfold normProbs
        rw [hsum]
        norm_num [likelihoods, likelihoodOf]
      refine ((h (by rw [hsum]; norm_num)).2 ?_).trans ?_
      · rw [hp]
        norm_num [listMax, defaultThreshold]
      · rw [if_pos rfl]
        rw [hp]
        rfl⟩

/-! ## `InfluenceDiagram.step`

`step(action, state)` overwrites `self.state_vars` with the passed state and
then the action, and returns
`self.factors["reward"].get_value(self.state_vars)` — a pure table lookup in
the single utility factor (`Utility` is a `Factor_stored`).  Assignments are
name-keyed dicts, embedded as `String → Option Nat` (value indices);
a missing key in the lookup is Python's `KeyError`, embedded as `none`. -/

/-- The utility factor: ordered variables as `(name, domain size)` pairs and
the stored dense table. -/
structure UtilityFactor where
  vars : List (String × Nat)
  values : List ℚ

/-- The per-variable digits read off an assignment dict, `none` if any
variable of the factor is missing (`KeyError`). -/
def lookupDigits (vars : List (String × Nat)) (asst : String → Option Nat) :
    Option (List Nat) :=
  match vars with
  | [] => some []
  | v :: vs =>
    match asst v.1, lookupDigits vs asst with
    | some d, some ds => some (d :: ds)
    | _, _ => none

/-- `Factor_stored.get_value` for the utility factor:
`self.values[self.assignment_to_index(assignment)]`. -/
def UtilityFactor.get_value (u : UtilityFactor) (asst : String → Option Nat) :
    Option ℚ :=
  (lookupDigits u.vars asst).bind
    (fun ds => u.values.get? (assignment_to_index (u.vars.map (·.2)) ds))

/-- `dict.update`-style overwrite: `for node in upd: base[node] = upd[node]`. -/
def pyDictUpdate (base upd : String → Option Nat) : String → Option Nat :=
  fun n => match upd n with
  | some v => some v
  | none => base n

/-- `InfluenceDiagram.step(action, state)` with `state` not `None`: update
`state_vars` with the state and then the action, and read the reward from
the utility factor. -/
def stepModel (u : UtilityFactor) (state_vars state action : String → Option Nat) :
    Option ℚ :=
  u.get_value (pyDictUpdate (pyDictUpdate state_vars state) action)

theorem lookupDigits_congr (vars : List (String × Nat))
    (a b : String → Option Nat) (h : ∀ v ∈ vars, a v.1 = b v.1) :
    lookupDigits vars a = lookupDigits vars b := by
  induction vars with
  | nil => rfl
  | cons v vs ih =>
    unfold lookupDigits
    rw [h v (by simp), ih (fun w hw => h w (by simp [hw]))]

/-- C10: with a complete state (one value per chance variable) and a
complete action (one value per decision variable), `step` returns exactly
the utility factor's stored value at the joint state-action assignment —
no dependence on the environment's previous `state_vars` (no resampling, no
random draw), so two calls with equal state and action arguments return
equal rewards. -/
theorem step_returns_stored_utility (u : UtilityFactor)
    (chance decision : List String)
    (prev₁ prev₂ state action : String → Option Nat)
    (hscope : ∀ v ∈ u.vars, v.1 ∈ chance ∨ v.1 ∈ decision)
    (hstate : ∀ n ∈ chance, (state n).isSome)
    (haction : ∀ n ∈ decision, (action n).isSome) :
    stepModel u prev₁ state action =
      u.get_value (pyDictUpdate state action) ∧
    stepModel u prev₁ state action = stepModel u prev₂ state action := by
  have hagree : ∀ (prev : String → Option Nat), ∀ v ∈ u.vars,
      pyDictUpdate (pyDictUpdate prev state) action v.1 =
        pyDictUpdate state action v.1 := by
    intro prev v hv
    unfold pyDictUpdate
    cases hact : action v.1 with
    | some x => rfl
    | none =>
      cases hst : state v.1 with
      | some y => rfl
      | none =>
        rcases hscope v hv with hch | hde
        · have := hstate v.1 hch
          rw [hst] at this
          cases this
        · have := haction v.1 hde
          rw [hact] at this
          cases this
  have hkey : ∀ (prev : String → Option Nat),
      stepModel u prev state action = u.get_value (pyDictUpdate state action) := by
    intro prev
    unfold stepModel UtilityFactor.get_value
    rw [lookupDigits_congr u.vars _ _ (hagree prev)]
  exact ⟨hkey prev₁, (hkey prev₁).trans (hkey prev₂).symm⟩

/-- Witness for C10: a 2×2 utility table over chance `c` and decision `d`,
state `c = 1`, action `d = 0`, two different stale `state_vars`. -/
theorem step_returns_stored_utility_witness :
    (stepModel ⟨[("c", 2), ("d", 2)], [10, 20, 30, 40]⟩
        (fun _ => some 9) (fun n => if n = "c" then some 1 else none)
        (fun n => if n = "d" then some 0 else none) =
      UtilityFactor.get_value ⟨[("c", 2), ("d", 2)], [10, 20, 30, 40]⟩
        (pyDictUpdate (fun n => if n = "c" then some 1 else none)
          (fun n => if n = "d" then some 0 else none)) ∧
     stepModel ⟨[("c", 2), ("d", 2)], [10, 20, 30, 40]⟩
        (fun _ => some 9) (fun n => if n = "c" then some 1 else none)
        (fun n => if n = "d" then some 0 else none) =
      stepModel ⟨[("c", 2), ("d", 2)], [10, 20, 30, 40]⟩
        (fun _ => none) (fun n => if n = "c" then some 1 else none)
        (fun n => if n = "d" then some 0 else none)) ∧
    stepModel ⟨[("c", 2), ("d", 2)], [10, 20, 30, 40]⟩
        (fun _ => some 9) (fun n => if n = "c" then some 1 else none)
        (fun n => if n = "d" then some 0 else none) = some 30 :=
  ⟨step_returns_stored_utility ⟨[("c", 2), ("d", 2)], [10, 20, 30, 40]⟩
      ["c"] ["d"] (fun _ => some 9) (fun _ => none)
      (fun n => if n = "c" then some 1 else none)
      (fun n => if n = "d" then some 0 else none)
      (by decide) (by decide) (by decide),
    by rfl⟩

/-! ## `TruePolicyAgent.getEliminationOrder`

Nodes are embedded by name.  The three phases of the source are modelled
faithfully, including both CPython mutate-while-iterating behaviours: a
`for x in lst` loop holds an internal index that advances by one per
iteration while `lst.remove(x)` shifts the remaining elements left (so the
element after a removed one is skipped), and a `for x in reversed(lst)` loop
counts the index down, which is unaffected by removing the just-yielded
element.  The two unbounded `while` loops take an explicit fuel; exhausted
fuel (`none`) corresponds to the source looping forever. -/

/-- Python's `list.remove(x)`: drop the first occurrence of `x`. -/
def pyListRemove (x : String) : List String → List String
  | [] => []
  | y :: ys => if y = x then ys else y :: pyListRemove x ys

theorem pyListRemove_length_le (x : String) (l : List String) :
    (pyListRemove x l).length ≤ l.length := by
  induction l with
  | nil => simp [pyListRemove]
  | cons y ys ih =>
    unfold pyListRemove
    by_cases h : y = x
    · rw [if_pos h]; simp
    · rw [if_neg h]; simpa using Nat.succ_le_succ ih

/-- One pass of the decision-ordering loop
(`for dec_node in dec_nodes_left: ...`), which removes ready nodes from
`dec_nodes_left` *while iterating over it*: `i` is the iterator's index.
The loop runs at most `left.length - i` more iterations, so any `fuel`
beyond that bound is faithful (each iteration advances `i` by one and never
lengthens the list). -/
def decPass (parents : String → List String) :
    Nat → Nat → List String → List String → List String × List String
  | 0, _, left, acc => (left, acc)
  | fuel + 1, i, left, acc =>
    if h : i < left.length then
      if (parents (left.get ⟨i, h⟩)).all (fun p => !(left.contains p)) then
        decPass parents fuel (i + 1) (pyListRemove (left.get ⟨i, h⟩) left)
          (acc ++ [left.get ⟨i, h⟩])
      else decPass parents fuel (i + 1) left acc
    else (left, acc)

/-- The outer `while len(dec_nodes_left)>0` loop around `decPass`. -/
def decOrderLoop (parents : String → List String) :
    Nat → List String → List String → Option (List String)
  | 0, left, acc => if left.isEmpty then some acc else none
  | fuel + 1, left, acc =>
    if left.isEmpty then some acc
    else
      match decPass parents (left.length + 1) 0 left acc with
      | (left', acc') => decOrderLoop parents fuel left' acc'

/-- The `for node in reversed(nodes_left)` sweep inside the main loop when a
decision node is pending: `rev` is the reversed snapshot being iterated
(removing the yielded element does not disturb a reversed iterator).  A
chance node is appended only if it has no not-yet-added child equal to
`last_dec` *and* its `node_types` entry equals `"chance"` — the source
compares against the literal `"chance"` although `node_types` only ever
holds `"state"` or `"action"`. -/
def chanceSweep (children : String → List String) (node_types : String → String)
    (last_dec : String) (rev : List String)
    (order nodes_left added : List String) (added_node : Bool) :
    List String × List String × List String × Bool :=
  match rev with
  | [] => (order, nodes_left, added, added_node)
  | n :: rest =>
    if (!((children n).any
          (fun c => (c != "reward") && !(added.contains c) && (c == last_dec))))
        && (node_types n == "chance") then
      chanceSweep children node_types last_dec rest (order ++ [n])
        (pyListRemove n nodes_left) (added ++ [n]) true
    else chanceSweep children node_types last_dec rest order nodes_left added added_node

/-- The main `while len(nodes_left)>0` loop: with decision nodes pending,
sweep for eligible chance nodes and, if none was added, emit the last
pending decision node; with no decision nodes left, emit everything in
reversed order. -/
def mainLoop (children : String → List String) (node_types : String → String) :
    Nat → List String → List String → List String → List String →
    Option (List String)
  | 0, order, nodes_left, _, _ => if nodes_left.isEmpty then some order else none
  | fuel + 1, order, nodes_left, added, dec_nodes =>
    if nodes_left.isEmpty then some order
    else
      match dec_nodes.getLast? with
      | some last_dec =>
        match chanceSweep children node_types last_dec nodes_left.reverse order
            nodes_left added false with
        | (order', nodes_left', added', added_node) =>
          if added_node then
            mainLoop children node_types fuel order' nodes_left' added' dec_nodes
          else
            mainLoop children node_types fuel (order' ++ [last_dec])
              (pyListRemove last_dec nodes_left') (added' ++ [last_dec])
              dec_nodes.dropLast
      | none =>
        mainLoop children node_types fuel (order ++ nodes_left.reverse) []
          (added ++ nodes_left.reverse) dec_nodes

/-- The final removal loop
`for node in order: if node.name not in reward_ancestors: order.remove(node)`,
iterating by index `i` over the list it shrinks. -/
def pyForRemoveGo (keep : String → Bool) :
    Nat → List String → Nat → List String
  | 0, l, _ => l
  | fuel + 1, l, i =>
    if h : i < l.length then
      if keep (l.get ⟨i, h⟩) then pyForRemoveGo keep fuel l (i + 1)
      else pyForRemoveGo keep fuel (pyListRemove (l.get ⟨i, h⟩) l) (i + 1)
    else l

/-- The removal phase applied to the whole constructed order.  The loop runs
at most `l.length` iterations before the iterator index passes the (never
growing) list length, so the supplied fuel is sufficient. -/
def pyForRemove (keep : String → Bool) (l : List String) : List String :=
  pyForRemoveGo keep (l.length + 1) l 0

/-- `TruePolicyAgent.getEliminationOrder`: order the decision nodes, run the
main interleaving loop, then drop non-ancestors of the reward node with the
mutate-while-iterating removal loop. -/
def getEliminationOrder (parents children : String → List String)
    (node_types : String → String)
    (nodes decision reward_ancestors : List String) (fuel : Nat) :
    Option (List String) :=
  (decOrderLoop parents fuel decision []).bind (fun dec_nodes =>
    (mainLoop children node_types fuel [] nodes [] dec_nodes).map
      (fun order => pyForRemove (fun n => reward_ancestors.contains n) order))

/-- Parent map of the counterexample diagram: chance `a`, `b`, `c`, decision
`d` with information set `{c}`; reward parents `c`, `d`. -/
def ceParents : String → List String := fun n => if n = "d" then ["c"] else []

/-- Child map of the counterexample diagram. -/
def ceChildren : String → List String := fun n =>
  if n = "c" then ["d", "reward"] else if n = "d" then ["reward"] else []

/-- `node_types` of the counterexample diagram: `"state"` for chance nodes,
`"action"` for the decision node (as set by `InfluenceDiagram.__init__`). -/
def ceTypes : String → String := fun n => if n = "d" then "action" else "state"

/-- C4 counterexample: on the diagram with chance nodes `a`, `b` (neither an
ancestor of the reward) and `c`, and decision `d` (reward ancestors `c`,
`d`), the constructed order is `[d, c, b, a]`; the removal loop deletes `b`,
skips over `a`, and returns `[d, c, a]` — the non-reward-ancestor `a`
remains in the elimination order. -/
theorem elimination_order_keeps_nonancestor :
    getEliminationOrder ceParents ceChildren ceTypes ["a", "b", "c", "d"]
      ["d"] ["c", "d"] 10 = some ["d", "c", "a"] ∧
    ("a" ∈ (["d", "c", "a"] : List String) ∧ "a" ∉ (["c", "d"] : List String)) := by
  constructor
  · rfl
  · decide

/-- Reference recursion for the removal loop's actual behaviour: a kept
element is kept; a dropped element causes the element right after it to be
kept *unexamined* (the iterator skip). -/
def removeSkip (keep : String → Bool) : List String → List String
  | [] => []
  | [x] => if keep x then [x] else []
  | x :: y :: ys =>
    if keep x then x :: removeSkip keep (y :: ys)
    else y :: removeSkip keep ys

theorem removeSkip_nil (keep : String → Bool) : removeSkip keep [] = [] := rfl

theorem removeSkip_cons_pos (keep : String → Bool) (x : String)
    (xs : List String) (h : keep x = true) :
    removeSkip keep (x :: xs) = x :: removeSkip keep xs := by
  cases xs with
  | nil => simp [removeSkip, h]
  | cons y ys => simp [removeSkip, h]

theorem removeSkip_neg_nil (keep : String → Bool) (x : String)
    (h : ¬ keep x = true) : removeSkip keep [x] = [] := by
  simp [removeSkip, h]

theorem removeSkip_neg_cons (keep : String → Bool) (x y : String)
    (ys : List String) (h : ¬ keep x = true) :
    removeSkip keep (x :: y :: ys) = y :: removeSkip keep ys := by
  simp [removeSkip, h]

theorem pyListRemove_append (x : String) (pre suf : List String)
    (hx : x ∉ pre) : pyListRemove x (pre ++ x :: suf) = pre ++ suf := by
  induction pre with
  | nil => simp [pyListRemove]
  | cons y pre ih =>
    have hy : ¬ y = x := fun h => hx (h ▸ List.mem_cons_self y pre)
    simp only [List.cons_append, pyListRemove, if_neg hy]
    exact congrArg (fun t => y :: t) (ih (fun h => hx (List.mem_cons_of_mem y h)))

theorem get_not_mem_take (l : List String) (i : Nat) (hi : i < l.length)
    (hnd : l.Nodup) : l.get ⟨i, hi⟩ ∉ l.take i := by
  have hsplit : l.take i ++ l.get ⟨i, hi⟩ :: l.drop (i + 1) = l := by
    rw [← List.drop_eq_get_cons hi, List.take_append_drop]
  rw [← hsplit] at hnd
  rw [List.nodup_append] at hnd
  intro hmem
  exact hnd.2.2 hmem (List.mem_cons_self _ _)

theorem pyForRemoveGo_eq (keep : String → Bool) :
    ∀ (fuel : Nat) (l : List String) (i : Nat), l.length - i < fuel → l.Nodup →
      pyForRemoveGo keep fuel l i = l.take i ++ removeSkip keep (l.drop i) := by
  intro fuel
  induction fuel with
  | zero => intro l i h _; omega
  | succ fuel ih =>
    intro l i hfuel hnd
    by_cases hi : i < l.length
    · have hdropc : l.drop i = l.get ⟨i, hi⟩ :: l.drop (i + 1) :=
        List.drop_eq_get_cons hi
      have htake : l.take (i + 1) = l.take i ++ [l.get ⟨i, hi⟩] := by
        rw [List.take_succ, List.getElem?_eq_getElem hi]
        rfl
      by_cases hk : keep (l.get ⟨i, hi⟩) = true
      · rw [pyForRemoveGo, dif_pos hi, if_pos hk,
          ih l (i + 1) (by omega) hnd, htake, hdropc]
        rw [removeSkip_cons_pos keep _ _ hk, List.append_assoc]
        rfl
      · have hsplit : l = l.take i ++ l.get ⟨i, hi⟩ :: l.drop (i + 1) := by
          rw [← hdropc, List.take_append_drop]
        have hrm : pyListRemove (l.get ⟨i, hi⟩) l = l.take i ++ l.drop (i + 1) := by
          have h := pyListRemove_append (l.get ⟨i, hi⟩) (l.take i) (l.drop (i + 1))
            (get_not_mem_take l i hi hnd)
          rw [← hsplit] at h
          exact h
        have htlen : (l.take i).length = i := by
          rw [List.length_take]
          omega
        have hnd' : (l.take i ++ l.drop (i + 1)).Nodup := by
          refine List.Nodup.sublist ?_ hnd
          conv_rhs => rw [hsplit]
          exact (List.sublist_cons_self _ _).append_left _
        have hlen' : (l.take i ++ l.drop (i + 1)).length - (i + 1) < fuel := by
          rw [List.length_append, htlen, List.length_drop]
          omega
        rw [pyForRemoveGo, dif_pos hi, if_neg hk, hrm,
          ih _ (i + 1) hlen' hnd']
        rw [List.take_append_eq_append_take, List.drop_append_eq_append_drop,
          htlen]
        have h1 : (l.take i).take (i + 1) = l.take i :=
          List.take_all_of_le (by omega)
        have h2 : (l.take i).drop (i + 1) = [] :=
          List.drop_eq_nil_of_le (by omega)
        have h3 : i + 1 - i = 1 := by omega
        rw [h1, h2, h3, List.nil_append, hdropc]
        cases hsuf : l.drop (i + 1) with
        | nil =>
          rw [removeSkip_neg_nil keep _ hk]
          simp [removeSkip_nil]
        | cons y ys =>
          rw [removeSkip_neg_cons keep _ _ _ hk]
          simp
    · rw [pyForRemoveGo, dif_neg hi,
        List.take_all_of_le (by omega), List.drop_eq_nil_of_le (by omega)]
      rw [removeSkip_nil, List.append_nil]

theorem removeSkip_filter (keep : String → Bool) :
    ∀ (n : Nat) (l : List String), l.length ≤ n →
      l.Chain' (fun a b => keep a = true ∨ keep b = true) →
      removeSkip keep l = l.filter keep := by
  intro n
  induction n with
  | zero =>
    intro l h _
    have hnil : l = [] := List.eq_nil_of_length_eq_zero (by omega)
    subst hnil
    rfl
  | succ n ih =>
    intro l hlen hch
    cases l with
    | nil => rfl
    | cons x xs =>
      by_cases hk : keep x = true
      · rw [removeSkip_cons_pos keep _ _ hk, List.filter_cons_of_pos hk]
        rw [ih xs (by simp only [List.length_cons] at hlen; omega) hch.tail]
      · cases xs with
        | nil => simp [removeSkip_neg_nil keep _ hk, hk]
        | cons y ys =>
          have hky : keep y = true := by
            rcases (List.chain'_cons.mp hch).1 with h | h
            · exact absurd h hk
            · exact h
          rw [removeSkip_neg_cons keep _ _ _ hk, List.filter_cons_of_neg (by simpa using hk),
            List.filter_cons_of_pos hky]
          have hys : removeSkip keep ys = ys.filter keep := by
            refine ih ys ?_ ((List.chain'_cons.mp hch).2.tail)
            simp only [List.length_cons] at hlen
            omega
          rw [hys]

/-- C4 amended: `getEliminationOrder` drops non-reward-ancestors with a
mutate-while-iterating loop (modelled by `pyForRemove`), which skips the
element that follows each removal.  Hence the returned order is free of
non-ancestors — equal to the ancestor-filter of the constructed order, each
reward-ancestor kept exactly once in place — exactly when the duplicate-free
constructed order has no two *consecutive* non-ancestors; in general each
maximal run of consecutive non-ancestors keeps its elements at odd
offsets (as the counterexample shows). -/
theorem elimination_order_filter (keep : String → Bool) (l : List String)
    (hnd : l.Nodup)
    (hadj : l.Chain' (fun a b => keep a = true ∨ keep b = true)) :
    pyForRemove keep l = l.filter keep ∧ (pyForRemove keep l).Nodup := by
  have h := pyForRemoveGo_eq keep (l.length + 1) l 0 (by omega) hnd
  unfold pyForRemove
  rw [h, List.take_zero, List.drop_zero, List.nil_append,
    removeSkip_filter keep l.length l le_rfl hadj]
  exact ⟨rfl, hnd.filter keep⟩

/-- Witness for C4 amended: the constructed order `[d, b, c]` with reward
ancestors `{c, d}` has no two adjacent non-ancestors, so the removal loop
returns exactly the filtered order `[d, c]`. -/
theorem elimination_order_filter_witness :
    (["d", "b", "c"] : List String).Nodup ∧
    (pyForRemove (fun n => (["c", "d"] : List String).contains n) ["d", "b", "c"] =
      (["d", "b", "c"] : List String).filter (fun n => (["c", "d"] : List String).contains n) ∧
     (pyForRemove (fun n => (["c", "d"] : List String).contains n) ["d", "b", "c"]).Nodup) :=
  ⟨by decide,
    elimination_order_filter (fun n => (["c", "d"] : List String).contains n)
      ["d", "b", "c"] (by decide)
      (List.chain'_cons.mpr ⟨Or.inl (by decide),
        List.chain'_cons.mpr ⟨Or.inr (by decide), List.chain'_singleton _⟩⟩)⟩

/-! ## `VE_DN.optimize`

Factors are embedded denotationally: a scope (list of variable ids, in the
factor's variable order), the unique id `Factor.nextid` assigns to every
factor (Python's `fac is not to_max[0]` identity test is the id test), a
flag marking `Factor_sum` instances (tested by `isinstance` in the post-hoc
fixup), and the factor's value as a function of a total assignment
(variable id ↦ value index).  The memo caches of `Factor_sum`/`Factor_max`
never change computed values (the sums are deterministic), so the
denotational value function is the faithful semantics for `optimize`'s
arithmetic. -/

/-- A factor as seen by `VE_DN.optimize`. -/
structure MFactor where
  id : Nat
  isSum : Bool
  scope : List Nat
  val : (Nat → Nat) → ℚ

/-- The decision network's variable metadata: domain sizes, which variables
are `DecisionVariable`s, and each decision variable's
`all_vars = set(parents) ∪ {self}`. -/
structure DecNet where
  domSize : Nat → Nat
  isDec : Nat → Bool
  allVars : Nat → List Nat

/-- The scope collected by `Factor_sum.__init__`: every variable of the
constituent factors except the summed-out one, first occurrence order. -/
def sumScope (v : Nat) (facs : List MFactor) : List Nat :=
  facs.foldl
    (fun acc f =>
      f.scope.foldl
        (fun acc2 u => if u ≠ v ∧ ¬ acc2.contains u then acc2 ++ [u] else acc2)
        acc)
    []

/-- The value of a `Factor_sum`: Σ over the summed-out variable's domain of
the pointwise product of the constituent factors at the extended
assignment. -/
def mkSumVal (net : DecNet) (v : Nat) (facs : List MFactor) :
    (Nat → Nat) → ℚ :=
  fun a =>
    ((List.range (net.domSize v)).map
      (fun d => (facs.map (fun f => f.val (Function.update a v d))).prod)).sum

/-- The value of a `Factor_max`: maximum over the decision variable's
domain of the factor at the extended assignment (`0` junk for an empty
domain, where the source would raise). -/
def mkMaxVal (net : DecNet) (v : Nat) (f : MFactor) : (Nat → Nat) → ℚ :=
  fun a => listMax ((List.range (net.domSize v)).map (fun d => f.val (Function.update a v d)))

/-- `VE.eliminate_var`: factors mentioning `v` are replaced by one fresh
`Factor_sum` (appended after the others); if none mention `v` the list is
returned unchanged and no id is consumed. -/
def eliminate_var (net : DecNet) (nid : Nat) (facs : List MFactor) (v : Nat) :
    Nat × List MFactor :=
  if (facs.filter (fun f => f.scope.contains v)).isEmpty then (nid, facs)
  else
    (nid + 1,
     facs.filter (fun f => ¬ f.scope.contains v) ++
       [⟨nid, true, sumScope v (facs.filter (fun f => f.scope.contains v)),
         mkSumVal net v (facs.filter (fun f => f.scope.contains v))⟩])

/-- `set(fac.variables) <= v.all_vars`. -/
def listSubset (xs ys : List Nat) : Bool := xs.all (fun x => ys.contains x)

/-- One step of `optimize`'s elimination loop: max-eliminate a decision
variable (asserting exactly one factor has scope inside
`parents(D) ∪ {D}` and recording `D` in the policy) or sum-eliminate a
chance variable. -/
def optStep (net : DecNet) (st : Nat × List MFactor × List Nat) (v : Nat) :
    Except String (Nat × List MFactor × List Nat) :=
  if net.isDec v then
    match st.2.1.filter
        (fun f => f.scope.contains v && listSubset f.scope (net.allVars v)) with
    | [t] =>
      .ok (st.1 + 1,
        st.2.1.filter (fun f => f.id ≠ t.id) ++
          [⟨st.1, false, t.scope.filter (fun u => u ≠ v), mkMaxVal net v t⟩],
        st.2.2 ++ [v])
    | _ => .error "illegal variable order"
  else
    .ok ((eliminate_var net st.1 st.2.1 v).1, (eliminate_var net st.1 st.2.1 v).2,
      st.2.2)

/-- The elimination loop of `optimize` over the whole order. -/
def processAll (net : DecNet) :
    Nat × List MFactor × List Nat → List Nat →
    Except String (Nat × List MFactor × List Nat)
  | st, [] => .ok st
  | st, v :: vs =>
    match optStep net st v with
    | .ok st' => processAll net st' vs
    | .error e => .error e

/-- The post-hoc fixup of `optimize` (the commented "Hacky fix"): drop every
residual `Factor_sum` whose cell 0 (the all-first-values assignment) equals
1. -/
def hackFilter (facs : List MFactor) : List MFactor :=
  facs.filter (fun f => !(f.isSum && decide (f.val (fun _ => 0) = 1)))

/-- `VE_DN.optimize`: run the elimination loop; if more than one factor
remains, apply the post-hoc fixup; assert a single factor remains and
return its value at the empty assignment (`get_value({})` raises `KeyError`
for a non-empty scope) together with the policy (tracked as the list of
maximised decision variables). -/
def optimizeModel (net : DecNet) (facs : List MFactor) (order : List Nat)
    (nid : Nat) : Except String (ℚ × List Nat) :=
  (processAll net (nid, facs, []) order).bind
    (fun r =>
      match (if r.2.1.length = 1 then r.2.1 else hackFilter r.2.1) with
      | [f] =>
        if f.scope = [] then .ok (f.val (fun _ => 0), r.2.2)
        else .error "KeyError"
      | _ => .error "assert: exactly one factor expected")

/-- The two-chance-variable counterexample network: variables `0` (`X`) and
`1` (`Y`), both binary, no decision variables. -/
def dnNet : DecNet := ⟨fun _ => 2, fun _ => false, fun _ => []⟩

/-- `P(X)`: certainty on value 0. -/
def dnProbX : MFactor := ⟨0, false, [0], fun a => if a 0 = 0 then 1 else 0⟩

/-- `P(Y)`: certainty on value 0; `Y` does not appear in the utility. -/
def dnProbY : MFactor := ⟨1, false, [1], fun a => if a 1 = 0 then 1 else 0⟩

/-- The utility factor `U(X)`. -/
def dnUtil : MFactor := ⟨2, false, [0], fun a => if a 0 = 0 then 3 else 5⟩

/-- The residual factor `Σ_X P(X)·U(X)` of the counterexample run. -/
def dnSumX : MFactor := ⟨3, true, [], mkSumVal dnNet 0 [dnProbX, dnUtil]⟩

/-- The leftover identity factor `Σ_Y P(Y)` of the counterexample run. -/
def dnSumY : MFactor := ⟨4, true, [], mkSumVal dnNet 1 [dnProbY]⟩

theorem dnSumX_val : dnSumX.val (fun _ => 0) = 3 := by
  norm_num [dnSumX, mkSumVal, dnNet, dnProbX, dnUtil, Function.update,
    List.range_succ]

theorem dnSumY_val : dnSumY.val (fun _ => 0) = 1 := by
  norm_num [dnSumY, mkSumVal, dnNet, dnProbY, Function.update, List.range_succ]

/-- C1 counterexample: the order `[X, Y]` lists every chance and decision
variable exactly once (there are no decision variables, so the information
set and per-decision factor conditions hold vacuously), yet after the full
order is processed *two* scope-empty factors remain (`Σ_X P(X)·U` and the
leftover `Σ_Y P(Y) = 1`); `optimize` still accepts the order by post-hoc
discarding the leftover identity `Factor_sum` and returns the survivor's
value `3`. -/
theorem optimize_hack_counterexample :
    (processAll dnNet (3, [dnProbX, dnProbY, dnUtil], []) [0, 1]).map
      (fun r => r.2.1.length) = .ok 2 ∧
    optimizeModel dnNet [dnProbX, dnProbY, dnUtil] [0, 1] 3 = .ok (3, []) := by
  constructor
  · rfl
  · have hpr : processAll dnNet (3, [dnProbX, dnProbY, dnUtil], []) [0, 1] =
        .ok (5, [dnSumX, dnSumY], []) := rfl
    unfold optimizeModel
    rw [hpr]
    show (match (if ([dnSumX, dnSumY] : List MFactor).length = 1
        then [dnSumX, dnSumY] else hackFilter [dnSumX, dnSumY]) with
      | [f] =>
        if f.scope = [] then Except.ok (f.val (fun _ => 0), ([] : List Nat))
        else Except.error "KeyError"
      | _ => Except.error "assert: exactly one factor expected") = .ok (3, [])
    have hdx : decide (dnSumX.val (fun _ => 0) = 1) = false :=
      decide_eq_false (by rw [dnSumX_val]; norm_num)
    have hdy : decide (dnSumY.val (fun _ => 0) = 1) = true :=
      decide_eq_true (by rw [dnSumY_val])
    have hsx : dnSumX.isSum = true := rfl
    have hsy : dnSumY.isSum = true := rfl
    have hfil : hackFilter [dnSumX, dnSumY] = [dnSumX] := by
      simp [hackFilter, hdx, hdy, hsx, hsy]
    rw [if_neg (by decide), hfil]
    show (if dnSumX.scope = [] then Except.ok (dnSumX.val (fun _ => 0), ([] : List Nat))
      else Except.error "KeyError") = .ok (3, [])
    rw [if_pos (show dnSumX.scope = ([] : List Nat) from rfl), dnSumX_val]

theorem optStep_ne_nil (net : DecNet) (st st' : Nat × List MFactor × List Nat)
    (v : Nat) (h : optStep net st v = .ok st') (hne : st.2.1 ≠ []) :
    st'.2.1 ≠ [] := by
  unfold optStep at h
  by_cases hd : net.isDec v = true
  · rw [if_pos hd] at h
    match hm : st.2.1.filter
        (fun f => f.scope.contains v && listSubset f.scope (net.allVars v)) with
    | [t] =>
      rw [hm] at h
      cases h
      simp
    | [] => rw [hm] at h; cases h
    | t₁ :: t₂ :: ts => rw [hm] at h; cases h
  · rw [if_neg hd] at h
    cases h
    unfold eliminate_var
    by_cases he : (st.2.1.filter (fun f => f.scope.contains v)).isEmpty = true
    · rw [if_pos he]
      exact hne
    · rw [if_neg he]
      simp

theorem processAll_ne_nil (net : DecNet) :
    ∀ (order : List Nat) (st r : Nat × List MFactor × List Nat),
      processAll net st order = .ok r → st.2.1 ≠ [] → r.2.1 ≠ [] := by
  intro order
  induction order with
  | nil =>
    intro st r h hne
    cases h
    exact hne
  | cons v vs ih =>
    intro st r h hne
    unfold processAll at h
    match hs : optStep net st v with
    | .ok st' =>
      rw [hs] at h
      exact ih st' r h (optStep_ne_nil net st st' v hs hne)
    | .error e => rw [hs] at h; cases h

/-- C1 amended: after a full accepted order is processed at least one
residual factor always remains, but — contrary to the claim — more than one
scope-empty factor can remain even for orders meeting all the stated
conditions.  When exactly one factor remains, no post-hoc discarding takes
place and `optimize` returns that factor's value at the empty assignment as
the expected utility of the returned policy; when more than one remains,
`optimize` first discards residual `Factor_sum` factors whose cell-0 value
equals 1 (the "Hacky fix") and only then asserts that a single factor is
left. -/
theorem optimize_residual (net : DecNet) (facs0 : List MFactor)
    (order : List Nat) (nid : Nat) (r : Nat × List MFactor × List Nat)
    (h0 : facs0 ≠ [])
    (hp : processAll net (nid, facs0, []) order = .ok r) :
    r.2.1 ≠ [] ∧
    (∀ f, r.2.1 = [f] → f.scope = [] →
      optimizeModel net facs0 order nid = .ok (f.val (fun _ => 0), r.2.2)) := by
  constructor
  · exact processAll_ne_nil net order (nid, facs0, []) r hp h0
  · intro f hf hscope
    unfold optimizeModel
    rw [hp]
    show (match (if r.2.1.length = 1 then r.2.1 else hackFilter r.2.1) with
      | [f] =>
        if f.scope = [] then Except.ok (f.val (fun _ => 0), r.2.2)
        else Except.error "KeyError"
      | _ => Except.error "assert: exactly one factor expected") = _
    rw [hf]
    have h1 : (if ([f] : List MFactor).length = 1 then [f] else hackFilter [f]) = [f] :=
      if_pos rfl
    rw [h1]
    show (if f.scope = [] then Except.ok (f.val (fun _ => 0), r.2.2)
      else Except.error "KeyError") = _
    rw [if_pos hscope]

/-- The witness network: one chance variable with a one-point domain. -/
def wNet : DecNet := ⟨fun _ => 1, fun _ => false, fun _ => []⟩

/-- The witness prior `P(X) = 1`. -/
def wProb : MFactor := ⟨0, false, [0], fun _ => 1⟩

/-- The witness utility `U(X) = 7`. -/
def wUtil : MFactor := ⟨1, false, [0], fun _ => 7⟩

/-- The residual `Factor_sum` produced by eliminating the only variable. -/
def wSum : MFactor := ⟨5, true, [], mkSumVal wNet 0 [wProb, wUtil]⟩

/-- Witness for C1 amended: eliminating the single chance variable leaves
exactly one scope-empty factor, and `optimize` returns its value without any
discarding. -/
theorem optimize_residual_witness :
    ([wProb, wUtil] : List MFactor) ≠ [] ∧
    processAll wNet (5, [wProb, wUtil], []) [0] = .ok (6, [wSum], []) ∧
    optimizeModel wNet [wProb, wUtil] [0] 5 = .ok (wSum.val (fun _ => 0), []) :=
  ⟨by simp,
   rfl,
   (optimize_residual wNet [wProb, wUtil] [0] 5 (6, [wSum], []) (by simp) rfl).2
     wSum rfl rfl⟩

end CLUE
